import Mathlib

/-!
Verification development for the spirulina-dss-frontend derivation pipeline.

The functions modelled here come from the dashboard component
(src/unnamed/part_001) and src/spirulina-dss-frontend/src/lib/utils.ts:
`extractSiteMetrics`, `extractProteinPrediction`,
`generateGrowthSeriesFromMetrics` / `DEFAULT_GROWTH_SERIES`,
`extractKeyPoints`, `cleanMarkdownBold`, and the report-filename
sanitization in `handleDownloadReport`.

JavaScript numbers are modelled as rationals extended with NaN and the two
infinities (exact arithmetic in place of IEEE doubles); JSON payloads are
modelled by an untyped `JsValue` tree.
-/

/-- A JavaScript number: a finite value (modelled exactly as a rational),
NaN, or one of the two infinities. -/
inductive JsNum where
  | fin (q : ℚ)
  | nan
  | inf (pos : Bool)
deriving DecidableEq

/-- An untyped JavaScript value, as delivered by the analysis endpoint.
`undefined` is the `undefined` value (also the result of reading a missing
property). -/
inductive JsValue where
  | undefined
  | null
  | bool (b : Bool)
  | num (n : JsNum)
  | str (s : String)
  | arr (xs : List JsValue)
  | obj (fields : List (String × JsValue))

/-- `Number.isFinite`. -/
def JsNum.isFinite : JsNum → Bool
  | .fin _ => true
  | _ => false

/-- The rational carried by a finite JS number (junk value 0 otherwise;
only ever read under an `isFinite` guard, as in the source). -/
def JsNum.toQ : JsNum → ℚ
  | .fin q => q
  | _ => 0

/-- Truthiness of a JS number: NaN and 0 are falsy. -/
def jsNumTruthy : JsNum → Bool
  | .fin q => decide (q ≠ 0)
  | .nan => false
  | .inf _ => true

/-- The `|| 0` idiom applied to a number (`Number(x) || 0`). -/
def jsOrZero (n : JsNum) : JsNum :=
  if jsNumTruthy n then n else .fin 0

/-- Strict `>` on JS numbers; any comparison involving NaN is false. -/
def jsGt : JsNum → JsNum → Bool
  | .fin a, .fin b => decide (b < a)
  | .fin _, .inf pos => !pos
  | .fin _, .nan => false
  | .nan, _ => false
  | .inf pos, .fin _ => pos
  | .inf pos, .inf pos2 => pos && !pos2
  | .inf _, .nan => false

/-- A value is nullish (`null` or `undefined`), the test used by `??`. -/
def nullish : JsValue → Bool
  | .undefined => true
  | .null => true
  | _ => false

/-- The `a ?? b` operator. -/
def coalesce (a b : JsValue) : JsValue :=
  if nullish a then b else a

/-- Property read `v?.k` / `v.k`.  Objects look the key up (payloads come
from parsed JSON, so keys are unique and first-match lookup agrees with
JS); every other shape yields `undefined` — the dashboard only reads
non-index, non-prototype keys such as "analysis" or "climate", for which
this is exact (including reads on `null`/`undefined` through `?.`). -/
def getProp : JsValue → String → JsValue
  | .obj fields, k =>
      match fields.lookup k with
      | some v => v
      | none => .undefined
  | _, _ => .undefined

/-- Numeric value of a digit string (most significant first). -/
def digitsVal (cs : List Char) : ℕ :=
  cs.foldl (fun acc c => acc * 10 + (c.toNat - 48)) 0

/-- Mantissa of "ip.fp". -/
def decMantissa (ip fp : List Char) : ℚ :=
  (digitsVal ip : ℚ) + (digitsVal fp : ℚ) / (10 ^ fp.length)

/-- Scale a parsed mantissa by a decimal exponent. -/
def applyExp (q : ℚ) (e : ℤ) : ℚ := q * (10 : ℚ) ^ e

/-- Exponent digits with optional sign. -/
def parseExpNat (cs : List Char) (pos : Bool) : Option ℤ :=
  if cs ≠ [] ∧ cs.all Char.isDigit then
    some (if pos then (digitsVal cs : ℤ) else -(digitsVal cs : ℤ))
  else none

/-- The optional exponent suffix of a decimal literal. -/
def parseExpPart : List Char → Option ℤ
  | [] => some 0
  | 'e' :: '+' :: rest => parseExpNat rest true
  | 'e' :: '-' :: rest => parseExpNat rest false
  | 'e' :: rest => parseExpNat rest true
  | 'E' :: '+' :: rest => parseExpNat rest true
  | 'E' :: '-' :: rest => parseExpNat rest false
  | 'E' :: rest => parseExpNat rest true
  | _ => none

/-- An unsigned decimal literal `digits [. digits] [e digits]` or
`. digits ...`. -/
def parseDecStr (cs : List Char) : Option ℚ :=
  let ip := cs.takeWhile Char.isDigit
  let r1 := cs.dropWhile Char.isDigit
  match r1 with
  | '.' :: r2 =>
      let fp := r2.takeWhile Char.isDigit
      let r3 := r2.dropWhile Char.isDigit
      if ip.isEmpty && fp.isEmpty then none
      else (parseExpPart r3).map (applyExp (decMantissa ip fp))
  | _ =>
      if ip.isEmpty then none
      else (parseExpPart r1).map (applyExp (digitsVal ip : ℚ))

/-- Unsigned part of `Number(string)`: "Infinity" or a decimal literal. -/
def parseUnsigned (cs : List Char) (pos : Bool) : JsNum :=
  if cs = ['I', 'n', 'f', 'i', 'n', 'i', 't', 'y'] then .inf pos
  else
    match parseDecStr cs with
    | some q => .fin (if pos then q else -q)
    | none => .nan

/-- Signed part of `Number(string)`. -/
def parseSigned : List Char → JsNum
  | '+' :: rest => parseUnsigned rest true
  | '-' :: rest => parseUnsigned rest false
  | cs => parseUnsigned cs true

/-- Whitespace trimming on both ends of a character list (the trim JS
applies before numeric conversion and in `String.prototype.trim`). -/
def trimChars (cs : List Char) : List Char :=
  ((cs.dropWhile Char.isWhitespace).reverse.dropWhile Char.isWhitespace).reverse

/-- `Number(string)`: trim, empty string is 0, otherwise a signed decimal
literal or Infinity (hex/octal/binary literal forms, unused by this
repository's payloads, conservatively map to NaN). -/
def parseJsNumber (s : String) : JsNum :=
  let cs := trimChars s.toList
  if cs.isEmpty then .fin 0 else parseSigned cs

/-- The `Number(x)` coercion for the value shapes the dashboard can
receive.  Single-element arrays coerce through their element's string
form (nested arrays/objects conservatively map to NaN). -/
def toNumber : JsValue → JsNum
  | .undefined => .nan
  | .null => .fin 0
  | .bool b => .fin (if b then 1 else 0)
  | .num n => n
  | .str s => parseJsNumber s
  | .arr [] => .fin 0
  | .arr [x] =>
      match x with
      | .num n => n
      | .str s => parseJsNumber s
      | .null => .fin 0
      | .undefined => .fin 0
      | _ => .nan
  | .arr (_ :: _ :: _) => .nan
  | .obj _ => .nan

/-- Environmental metrics record (part_001 lines 49-54); an instance only
exists with all four readings finite. -/
structure SiteMetrics where
  temperature : ℚ
  ph : ℚ
  radiation : ℚ
  salinity : ℚ
deriving DecidableEq

/-- Protein band (part_001 line 56). -/
inductive ProteinLevel where
  | Low
  | Medium
  | High
deriving DecidableEq

/-- Protein banding result (part_001 lines 58-61). -/
structure ProteinPrediction where
  level : ProteinLevel
  score : ℚ
deriving DecidableEq

/-- One point of the growth series (part_001 lines 63-66). -/
structure GrowthPoint where
  day : ℕ
  doublingTime : ℝ

/-- The ideal cultivation envelope (part_001 lines 68-73). -/
def IDEAL_METRICS : SiteMetrics :=
  { temperature := 30, ph := 9.0, radiation := 16, salinity := 3 }

/-- The wrapper peeling `analysisRoot?.analysis ?? analysisRoot ?? {}`
shared by both extractors (part_001 lines 142 and 177). -/
def jsInner (root : JsValue) : JsValue :=
  coalesce (coalesce (getProp root "analysis") root) (.obj [])

/-- The `inner.climate ?? {}` sub-object (part_001 line 143). -/
def climateOf (root : JsValue) : JsValue :=
  coalesce (getProp (jsInner root) "climate") (.obj [])

/-- The `inner.water_profile ?? {}` sub-object (part_001 line 144). -/
def waterOf (root : JsValue) : JsValue :=
  coalesce (getProp (jsInner root) "water_profile") (.obj [])

/-- Coerced temperature reading (part_001 lines 146-148). -/
def resolvedTemperature (root : JsValue) : JsNum :=
  toNumber (coalesce
    (coalesce (getProp (climateOf root) "temperature")
      (getProp (climateOf root) "avg_temperature"))
    (getProp (climateOf root) "T2M"))

/-- Coerced solar-radiation reading (part_001 lines 149-151). -/
def resolvedRadiation (root : JsValue) : JsNum :=
  toNumber (coalesce
    (coalesce (getProp (climateOf root) "solar_radiation")
      (getProp (climateOf root) "radiation"))
    (getProp (climateOf root) "ALLSKY_SFC_SW_DWN"))

/-- Coerced pH reading (part_001 lines 152-154). -/
def resolvedPh (root : JsValue) : JsNum :=
  toNumber (coalesce
    (coalesce (getProp (waterOf root) "initial_pH")
      (getProp (waterOf root) "ph"))
    (getProp (waterOf root) "pH"))

/-- Coerced salinity reading (part_001 lines 155-157). -/
def resolvedSalinity (root : JsValue) : JsNum :=
  toNumber (coalesce (getProp (waterOf root) "salinity")
    (getProp (waterOf root) "SALINITY"))

/-- `extractSiteMetrics` (part_001 lines 141-174): all four coerced
readings must be finite, otherwise the whole result is absent. -/
def extractSiteMetrics (root : JsValue) : Option SiteMetrics :=
  if (resolvedTemperature root).isFinite && (resolvedRadiation root).isFinite
      && (resolvedPh root).isFinite && (resolvedSalinity root).isFinite then
    some
      { temperature := (resolvedTemperature root).toQ
        ph := (resolvedPh root).toQ
        radiation := (resolvedRadiation root).toQ
        salinity := (resolvedSalinity root).toQ }
  else none

/-- The `inner.biomass_prediction ?? {}` sub-object (part_001 line 178). -/
def biomassOf (root : JsValue) : JsValue :=
  coalesce (getProp (jsInner root) "biomass_prediction") (.obj [])

/-- The raw `biomass.confidence` value (part_001 line 181). -/
def confidenceOf (root : JsValue) : JsValue :=
  getProp (biomassOf root) "confidence"

/-- The raw `inner.cultivation_status` value (part_001 line 217). -/
def statusOf (root : JsValue) : JsValue :=
  getProp (jsInner root) "cultivation_status"

/-- The fixed band table (part_001 line 183). -/
def bands : List ProteinLevel := [.Low, .Medium, .High]

/-- `bands[Math.min(maxIdx, bands.length - 1)]` (part_001 line 197). -/
def bandOf (idx : ℕ) : ProteinLevel :=
  bands.getD (min idx (bands.length - 1)) .High

/-- The `confidence.forEach` running-maximum loop (part_001 lines
187-193): the accumulator holds the current `maxVal` and `maxIdx`, a
candidate replaces it only when it is finite and strictly greater. -/
def scanMaxGo : List JsValue → ℕ → JsNum → ℕ → JsNum × ℕ
  | [], _, mv, mi => (mv, mi)
  | v :: rest, idx, mv, mi =>
      let num := toNumber v
      if num.isFinite && jsGt num mv then scanMaxGo rest (idx + 1) num idx
      else scanMaxGo rest (idx + 1) mv mi

/-- Runs the loop with the source's initial accumulator
`maxVal = Number(confidence[0]) || 0`, `maxIdx = 0` (lines 184-185). -/
def scanMax (xs : List JsValue) : JsNum × ℕ :=
  scanMaxGo xs 0 (jsOrZero (toNumber (xs.headD .undefined))) 0

/-- `Number(x.toFixed(1))`: round to one decimal place, ties toward the
larger value, exactly as ECMA specifies for `toFixed`. -/
def roundTo1 (q : ℚ) : ℚ := (round (q * 10) : ℤ) / 10

/-- Tiers 2 and 3 of the classifier (part_001 lines 202-228): numeric
banding of `biomass_prediction.biomass_prediction` with fixed score 70,
then the `cultivation_status` proxy, then absent. -/
def proteinFallback (root : JsValue) : Option ProteinPrediction :=
  let raw := toNumber (getProp (biomassOf root) "biomass_prediction")
  if raw.isFinite then
    some
      { level :=
          if raw.toQ < 30 then .Low
          else if raw.toQ < 70 then .Medium
          else .High
        score := 70 }
  else
    match statusOf root with
    | .str s =>
        if s = "INVALID" then some { level := .Low, score := 60 }
        else if s = "MARGINAL" then some { level := .Medium, score := 65 }
        else if s = "VALID" then some { level := .High, score := 80 }
        else none
    | _ => none

/-- `extractProteinPrediction` (part_001 lines 176-229): the
confidence-vector tier applies whenever `biomass.confidence` is an array
of length at least 3, otherwise the fallback tiers run. -/
def extractProteinPrediction (root : JsValue) : Option ProteinPrediction :=
  match confidenceOf root with
  | .arr xs =>
      if 3 ≤ xs.length then
        let mv := (scanMax xs).1
        let mi := (scanMax xs).2
        let score : ℚ := if mv.isFinite then mv.toQ * 100 else 0
        some { level := bandOf mi, score := roundTo1 score }
      else proteinFallback root
  | _ => proteinFallback root

/-- The static fallback growth series (part_001 lines 75-81):
`doublingTime = 2.1 + sin(idx / 2) * 0.25` for indices 0..13, shown as
days 1..14. -/
noncomputable def DEFAULT_GROWTH_SERIES : List GrowthPoint :=
  (List.range 14).map (fun idx =>
    { day := idx + 1
      doublingTime := 2.1 + Real.sin ((idx : ℝ) / 2) * 0.25 })

/-- `generateGrowthSeriesFromMetrics` (part_001 lines 231-258): absent
metrics give the default series; otherwise the deviation penalty from the
ideal envelope fixes a clamped base doubling time, and each day adds a
seasonal sine term, rounded to 2 decimal places. -/
noncomputable def generateGrowthSeriesFromMetrics :
    Option SiteMetrics → List GrowthPoint
  | none => DEFAULT_GROWTH_SERIES
  | some metrics =>
      let tempDelta : ℚ := |metrics.temperature - IDEAL_METRICS.temperature|
      let radDelta : ℚ := |metrics.radiation - IDEAL_METRICS.radiation|
      let penalty : ℚ := tempDelta * 0.03 + radDelta * 0.02
      let baseDoubling : ℚ := max 1.2 (min 3.5 (1.8 + penalty))
      (List.range 14).map (fun idx =>
        let day : ℕ := idx + 1
        let seasonal : ℝ := Real.sin ((day : ℝ) / 2.5) * 0.1
        { day := day
          doublingTime :=
            (round (((baseDoubling : ℝ) + seasonal) * 100) : ℤ) / 100 })

/-- The bullet test (part_001 lines 93-94, second and third characters of
the numeric-dot regex): after at least one digit, a dot. -/
def numDotAfter : List Char → Bool
  | [] => false
  | c :: rest => if c.isDigit then numDotAfter rest else decide (c = '.')

/-- The regex test `^[0-9]+\.` (part_001 line 94). -/
def numDotTest (s : String) : Bool :=
  match s.toList with
  | [] => false
  | c :: rest => c.isDigit && numDotAfter rest

/-- First character of a line (`line.startsWith` with a one-character
pattern). -/
def headIs (cs : List Char) (c : Char) : Bool :=
  match cs with
  | d :: _ => d = c
  | [] => false

/-- The bullet classifier (part_001 lines 93-94). -/
def isBulletLine (line : String) : Bool :=
  headIs line.toList '*' || headIs line.toList '-' || numDotTest line

/-- Membership in the marker class of the stripping regex
`^[\*\-\d\.\)\s]+` (part_001 lines 99 and 103). -/
def isMarkerChar (c : Char) : Bool :=
  c = '*' || c = '-' || c.isDigit || c = '.' || c = ')' || c.isWhitespace

/-- Strip leading marker characters and trim (lines 99 and 103). -/
def stripMarkers (line : String) : String :=
  String.mk (trimChars (line.toList.dropWhile isMarkerChar))

/-- The `text.split("\n")` splitter on character lists (an empty input
yields one empty line, as in JS). -/
def splitLines : List Char → List (List Char)
  | [] => [[]]
  | c :: rest =>
      let r := splitLines rest
      if c = '\n' then [] :: r
      else
        match r with
        | [] => [[c]]
        | h :: t => (c :: h) :: t

/-- Trimmed, non-empty lines of the input (part_001 lines 88-91). -/
def rawLinesOf (cleaned : String) : List String :=
  ((splitLines cleaned.toList).map (fun cs => String.mk (trimChars cs))).filter
    (fun line => 0 < line.length)

/-- The preferred candidate set: bullet-classified lines, markers
stripped, length at least 5 (part_001 lines 97-100). -/
def cleanedBulletsOf (cleaned : String) : List String :=
  (((rawLinesOf cleaned).filter isBulletLine).map stripMarkers).filter
    (fun line => 5 ≤ line.length)

/-- The fallback candidate set: every non-empty line, markers stripped,
length at least 5 (part_001 lines 102-104). -/
def fallbackLinesOf (cleaned : String) : List String :=
  ((rawLinesOf cleaned).map stripMarkers).filter (fun line => 5 ≤ line.length)

/-- `extractKeyPoints` (part_001 lines 85-109). -/
def extractKeyPoints (cleaned : String) : List String :=
  if cleaned = "" then []
  else
    let source :=
      if 0 < (cleanedBulletsOf cleaned).length then cleanedBulletsOf cleaned
      else fallbackLinesOf cleaned
    source.take 6

/-- Scan for the lazy close of `/\*\*(.*?)\*\*/`: the earliest following
`**`, failing on a newline (the dot of the regex does not match one) or
at the end of input.  Returns the captured group and the characters after
the close. -/
def findClose : List Char → Option (List Char × List Char)
  | '*' :: '*' :: rest => some ([], rest)
  | '\n' :: _ => none
  | c :: rest =>
      match findClose rest with
      | some (g, r) => some (c :: g, r)
      | none => none
  | [] => none

/-- Scan for the leftmost full match of `/\*\*(.*?)\*\*/`: positions are
tried left to right; a `**` with no reachable close is skipped one
character at a time, as regex backtracking does.  Returns the text before
the match, the captured group and the text after the match. -/
def scanOpen : List Char → Option (List Char × List Char × List Char)
  | c1 :: c2 :: rest2 =>
      if c1 = '*' ∧ c2 = '*' then
        match findClose rest2 with
        | some (g, r) => some ([], g, r)
        | none =>
            match scanOpen (c2 :: rest2) with
            | some (pre, g, r) => some (c1 :: pre, g, r)
            | none => none
      else
        match scanOpen (c2 :: rest2) with
        | some (pre, g, r) => some (c1 :: pre, g, r)
        | none => none
  | _ => none

/-- A successful close scan splits its input as group, close marker,
remainder. -/
theorem findClose_sound :
    ∀ cs g r, findClose cs = some (g, r) → cs = g ++ '*' :: '*' :: r := by
  intro cs
  induction cs using findClose.induct with
  | case1 rest => intro g r h; simp [findClose] at h; simp [h.1, h.2]
  | case2 x => intro g r h; simp [findClose] at h
  | case3 c rest h1 h2 g0 r0 hsome ih =>
    intro g r h
    simp [findClose, hsome] at h
    have := ih g0 r0 hsome
    simp [← h.1, ← h.2, this]
  | case4 c rest h1 h2 hnone ih =>
    intro g r h
    simp [findClose, hnone] at h
  | case5 => intro g r h; simp [findClose] at h

/-- A successful open scan splits its input as prefix, open marker,
group, close marker, remainder. -/
theorem scanOpen_sound :
    ∀ cs pre g post, scanOpen cs = some (pre, g, post) →
      cs = pre ++ '*' :: '*' :: g ++ '*' :: '*' :: post := by
  intro cs
  induction cs using scanOpen.induct with
  | case1 c1 c2 rest2 hstars g0 r0 hfc =>
    intro pre g post h
    obtain ⟨hc1, hc2⟩ := hstars
    subst hc1; subst hc2
    simp [scanOpen, hfc] at h
    have := findClose_sound rest2 g0 r0 hfc
    simp [← h.1, ← h.2.1, ← h.2.2, this]
  | case2 c1 c2 rest2 hstars hfc pre0 g0 r0 hso ih =>
    intro pre g post h
    obtain ⟨hc1, hc2⟩ := hstars
    subst hc1; subst hc2
    simp [scanOpen, hfc, hso] at h
    have := ih pre0 g0 r0 hso
    simp [← h.1, ← h.2.1, ← h.2.2, this]
  | case3 c1 c2 rest2 hstars hfc hso ih =>
    intro pre g post h
    obtain ⟨hc1, hc2⟩ := hstars
    subst hc1; subst hc2
    simp [scanOpen, hfc, hso] at h
  | case4 c1 c2 rest2 hstars pre0 g0 r0 hso ih =>
    intro pre g post h
    simp [scanOpen, hstars, hso] at h
    have := ih pre0 g0 r0 hso
    simp [← h.1, ← h.2.1, ← h.2.2, this]
  | case5 c1 c2 rest2 hstars hso ih =>
    intro pre g post h
    simp [scanOpen, hstars, hso] at h
  | case6 t hx =>
    intro pre g post h
    match t, hx with
    | [], _ => simp [scanOpen] at h
    | [a], _ => simp [scanOpen] at h
    | a :: b :: t3, hx => exact (hx a b t3 rfl).elim

/-- `input.replace(/\*\*(.*?)\*\*/g, "$1")` on the character list: each
match is replaced by its captured group, continuing after the match. -/
def replaceBoldChars (cs : List Char) : List Char :=
  match h : scanOpen cs with
  | none => cs
  | some (pre, g, post) => pre ++ g ++ replaceBoldChars post
termination_by cs.length
decreasing_by
  have hsplit := scanOpen_sound cs pre g post h
  subst hsplit
  simp
  omega

/-- The argument type of `cleanMarkdownBold`
(string | undefined | null). -/
inductive JsStrInput where
  | null
  | undefined
  | string (s : String)

/-- `cleanMarkdownBold` (utils.ts lines 8-13): falsy input gives the
empty string, otherwise markdown bold markers are stripped. -/
def cleanMarkdownBold : JsStrInput → String
  | .null => ""
  | .undefined => ""
  | .string s => if s = "" then "" else String.mk (replaceBoldChars s.toList)

/-- Characters kept verbatim by the filename sanitizer: `\w` (ASCII
letters, digits, underscore) and hyphen (part_001 line 376). -/
def isWordOrHyphen (c : Char) : Bool :=
  c.isAlphanum || c = '_' || c = '-'

/-- `label.replace(/[^\w\-]+/g, "_")` one character at a time: the flag
records whether the previous character was part of a run already replaced
by an underscore (the `+` of the regex). -/
def sanitizeGo : Bool → List Char → List Char
  | _, [] => []
  | prevBad, c :: rest =>
      if isWordOrHyphen c then c :: sanitizeGo false rest
      else if prevBad then sanitizeGo true rest
      else '_' :: sanitizeGo true rest

/-- The `safeName` of part_001 line 376. -/
def safeNameOf (label : String) : String :=
  String.mk (sanitizeGo false label.toList)

/-- The saved-file name of part_001 line 377. -/
def reportFilename (label : String) : String :=
  "spirulina_site_report_"
    ++ (if safeNameOf label = "" then "site" else safeNameOf label) ++ ".pdf"

/-- A finite JS number is its rational image. -/
theorem JsNum.eq_fin_of_isFinite (n : JsNum) (h : n.isFinite = true) :
    n = .fin n.toQ := by
  cases n with
  | fin q => rfl
  | nan => simp [JsNum.isFinite] at h
  | inf b => simp [JsNum.isFinite] at h

/-- C5: for every input string, `extractKeyPoints` returns at most the
first 6 items of the preferred (bullet) candidate set when that set is
non-empty and otherwise at most the first 6 items of the fallback
candidate set, in source order; in particular the result never has more
than 6 items. -/
theorem spec_C5 (cleaned : String) :
    extractKeyPoints cleaned =
      (if cleanedBulletsOf cleaned ≠ [] then cleanedBulletsOf cleaned
       else fallbackLinesOf cleaned).take 6 ∧
    (extractKeyPoints cleaned).length ≤ 6 := by
  have hmain : extractKeyPoints cleaned =
      (if cleanedBulletsOf cleaned ≠ [] then cleanedBulletsOf cleaned
       else fallbackLinesOf cleaned).take 6 := by
    unfold extractKeyPoints
    by_cases hempty : cleaned = ""
    · subst hempty
      have hb : cleanedBulletsOf "" = [] := by decide
      have hf : fallbackLinesOf "" = [] := by decide
      simp [hb, hf]
    · rw [if_neg hempty]
      by_cases hbul : cleanedBulletsOf cleaned = []
      · simp [hbul]
      · have hlen : 0 < (cleanedBulletsOf cleaned).length :=
          List.length_pos.mpr hbul
        simp [hbul, hlen]
  refine ⟨hmain, ?_⟩
  rw [hmain]
  simp [List.length_take]

/-- Shapes that are not plain objects. -/
def isObjectValue : JsValue → Bool
  | .obj _ => true
  | _ => false

/-- C8: a payload that is not an object (null, undefined, a number, a
boolean, a string, or an array) makes both extractors behave as if every
field were missing — each returns absent, and no error is raised (the
model functions are total). -/
theorem spec_C8 (root : JsValue) (h : isObjectValue root = false) :
    extractSiteMetrics root = none ∧ extractProteinPrediction root = none := by
  cases root with
  | obj fields => simp [isObjectValue] at h
  | undefined =>
      exact ⟨by decide, by decide⟩
  | null =>
      exact ⟨by decide, by decide⟩
  | bool b =>
      constructor
      · simp [extractSiteMetrics, resolvedTemperature, resolvedRadiation,
          resolvedPh, resolvedSalinity, climateOf, waterOf, jsInner, getProp,
          coalesce, nullish, toNumber, JsNum.isFinite]
      · simp [extractProteinPrediction, confidenceOf, biomassOf, statusOf,
          jsInner, getProp, coalesce, nullish, proteinFallback, toNumber,
          JsNum.isFinite]
  | num n =>
      constructor
      · simp [extractSiteMetrics, resolvedTemperature, resolvedRadiation,
          resolvedPh, resolvedSalinity, climateOf, waterOf, jsInner, getProp,
          coalesce, nullish, toNumber, JsNum.isFinite]
      · simp [extractProteinPrediction, confidenceOf, biomassOf, statusOf,
          jsInner, getProp, coalesce, nullish, proteinFallback, toNumber,
          JsNum.isFinite]
  | str s =>
      constructor
      · simp [extractSiteMetrics, resolvedTemperature, resolvedRadiation,
          resolvedPh, resolvedSalinity, climateOf, waterOf, jsInner, getProp,
          coalesce, nullish, toNumber, JsNum.isFinite]
      · simp [extractProteinPrediction, confidenceOf, biomassOf, statusOf,
          jsInner, getProp, coalesce, nullish, proteinFallback, toNumber,
          JsNum.isFinite]
  | arr xs =>
      constructor
      · simp [extractSiteMetrics, resolvedTemperature, resolvedRadiation,
          resolvedPh, resolvedSalinity, climateOf, waterOf, jsInner, getProp,
          coalesce, nullish, toNumber, JsNum.isFinite]
      · simp [extractProteinPrediction, confidenceOf, biomassOf, statusOf,
          jsInner, getProp, coalesce, nullish, proteinFallback, toNumber,
          JsNum.isFinite]

/-- Closed instance of C8 at a string payload. -/
theorem spec_C8_witness :
    extractSiteMetrics (.str "oops") = none ∧
    extractProteinPrediction (.str "oops") = none :=
  spec_C8 (.str "oops") rfl

/-- C2: the metrics resolver is all-or-nothing — if coercion of any of
the four readings fails the whole result is absent, and a present result
carries exactly the four finite coerced readings (so no partial record is
ever produced). -/
theorem spec_C2 :
    (∀ root : JsValue,
        ((resolvedTemperature root).isFinite = false ∨
         (resolvedRadiation root).isFinite = false ∨
         (resolvedPh root).isFinite = false ∨
         (resolvedSalinity root).isFinite = false) →
        extractSiteMetrics root = none) ∧
    (∀ (root : JsValue) (m : SiteMetrics),
        extractSiteMetrics root = some m →
        resolvedTemperature root = .fin m.temperature ∧
        resolvedPh root = .fin m.ph ∧
        resolvedRadiation root = .fin m.radiation ∧
        resolvedSalinity root = .fin m.salinity) := by
  constructor
  · intro root h
    rcases h with h | h | h | h <;> simp [extractSiteMetrics, h]
  · intro root m h
    unfold extractSiteMetrics at h
    by_cases hc : ((resolvedTemperature root).isFinite
        && (resolvedRadiation root).isFinite && (resolvedPh root).isFinite
        && (resolvedSalinity root).isFinite) = true
    · rw [if_pos hc] at h
      simp only [Bool.and_eq_true] at hc
      obtain ⟨⟨⟨ht, hr⟩, hp⟩, hs⟩ := hc
      injection h with h
      subst h
      exact ⟨JsNum.eq_fin_of_isFinite _ ht, JsNum.eq_fin_of_isFinite _ hp,
        JsNum.eq_fin_of_isFinite _ hr, JsNum.eq_fin_of_isFinite _ hs⟩
    · rw [if_neg hc] at h
      cases h

/-- A payload with three of the four metrics fields; salinity is
missing. -/
def payloadNoSalinity : JsValue :=
  .obj [("climate", .obj [("temperature", .num (.fin 25)),
          ("radiation", .num (.fin 18))]),
        ("water_profile", .obj [("ph", .num (.fin 9))])]

/-- Closed instance of C2: one missing field makes the whole result
absent. -/
theorem spec_C2_witness : extractSiteMetrics payloadNoSalinity = none :=
  spec_C2.1 payloadNoSalinity (Or.inr (Or.inr (Or.inr (by decide))))

/-- C7: when tier 1 is inapplicable and the raw biomass value coerces to
a finite number `v`, the classifier bands `v` at 30 and 70 and always
reports the fixed score 70. -/
theorem spec_C7 (root : JsValue) (v : ℚ)
    (h1 : ∀ xs, confidenceOf root = .arr xs → xs.length < 3)
    (h2 : toNumber (getProp (biomassOf root) "biomass_prediction") = .fin v) :
    extractProteinPrediction root =
      some { level := if v < 30 then .Low else if v < 70 then .Medium
               else .High,
             score := 70 } := by
  have hfall : proteinFallback root =
      some { level := if v < 30 then ProteinLevel.Low
               else if v < 70 then .Medium else .High,
             score := 70 } := by
    simp [proteinFallback, h2, JsNum.isFinite, JsNum.toQ]
  rw [extractProteinPrediction.eq_def]
  cases hcv : confidenceOf root with
  | arr xs =>
      have hlt := h1 xs hcv
      simp only
      rw [if_neg (by omega)]
      exact hfall
  | undefined => exact hfall
  | null => exact hfall
  | bool b => exact hfall
  | num n => exact hfall
  | str s => exact hfall
  | obj fields => exact hfall

/-- A payload with only a numeric biomass value of 25. -/
def payloadBiomass25 : JsValue :=
  .obj [("biomass_prediction", .obj [("biomass_prediction", .num (.fin 25))])]

/-- Closed instance of C7 at biomass 25: band Low, score 70. -/
theorem spec_C7_witness :
    extractProteinPrediction payloadBiomass25 =
      some { level := .Low, score := 70 } := by
  have h := spec_C7 payloadBiomass25 25
    (fun xs h => by exact absurd h (by intro hx; cases hx)) (by decide)
  simpa using h

/-- Character-wise sanitization, as claim C9 words it: every single
non-word, non-hyphen character becomes its own underscore. -/
def charwiseSanitize (label : String) : String :=
  String.mk (label.toList.map (fun c => if isWordOrHyphen c then c else '_'))

/-- C9 counterexample: on the label "a  b" (two spaces) the code collapses
the run into one underscore, while the claim's character-wise replacement
would give two. -/
theorem spec_C9_counterexample :
    reportFilename "a  b" = "spirulina_site_report_a_b.pdf" ∧
    "spirulina_site_report_" ++ charwiseSanitize "a  b" ++ ".pdf"
      = "spirulina_site_report_a__b.pdf" ∧
    reportFilename "a  b"
      ≠ "spirulina_site_report_" ++ charwiseSanitize "a  b" ++ ".pdf" := by
  refine ⟨by decide, by decide, by decide⟩

/-- Modelled from the amended claim: each maximal run of consecutive
non-word, non-hyphen characters is replaced by a single underscore. -/
def collapseRuns : List Char → List Char
  | [] => []
  | c :: rest =>
      if isWordOrHyphen c then c :: collapseRuns rest
      else '_' :: collapseRuns (rest.dropWhile (fun d => !isWordOrHyphen d))
termination_by cs => cs.length
decreasing_by
  · simp only [List.length_cons]
    omega
  · have := List.Sublist.length_le
      (List.dropWhile_sublist (fun d => !isWordOrHyphen d) (l := rest))
    simp only [List.length_cons]
    omega

/-- After an underscore was just emitted, the sanitizer skips the rest of
the bad run. -/
theorem sanitizeGo_true_eq (cs : List Char) :
    sanitizeGo true cs
      = sanitizeGo false (cs.dropWhile (fun d => !isWordOrHyphen d)) := by
  induction cs with
  | nil => rfl
  | cons c rest ih =>
      by_cases hc : isWordOrHyphen c = true
      · simp [sanitizeGo, hc, List.dropWhile_cons]
      · simp only [Bool.not_eq_true] at hc
        simp [sanitizeGo, hc, List.dropWhile_cons, ih]

/-- The regex-faithful sanitizer agrees with the run-collapsing
description. -/
theorem sanitizeGo_eq_collapseRuns (cs : List Char) :
    sanitizeGo false cs = collapseRuns cs := by
  induction cs using collapseRuns.induct with
  | case1 => simp [sanitizeGo, collapseRuns]
  | case2 c rest hc ih => simp [sanitizeGo, collapseRuns, hc, ih]
  | case3 c rest hc ih =>
      simp only [Bool.not_eq_true] at hc
      simp [sanitizeGo, collapseRuns, hc, sanitizeGo_true_eq, ih]

/-- C9 amended: the saved file is named
`spirulina_site_report_<s>.pdf`, where `<s>` replaces each maximal run of
consecutive non-word, non-hyphen characters of the label with a single
underscore, falling back to the literal token "site" when the sanitized
label is empty. -/
theorem spec_C9_amended (label : String) :
    reportFilename label =
      "spirulina_site_report_"
        ++ (if String.mk (collapseRuns label.toList) = "" then "site"
            else String.mk (collapseRuns label.toList)) ++ ".pdf" := by
  have h := sanitizeGo_eq_collapseRuns label.toList
  unfold reportFilename safeNameOf
  rw [h]

/-- Characterization of the running-maximum loop on an all-finite vector,
for any starting accumulator: the result is finite, dominates the start
value and every element, and is either the untouched start accumulator or
the first strictly-greater-than-everything-before-it occurrence of the
maximum. -/
theorem scanMaxGo_finite_char :
    ∀ xs : List JsValue, (∀ x ∈ xs, (toNumber x).isFinite = true) →
    ∀ (i mi : ℕ) (m : ℚ),
      ∃ rm ri, scanMaxGo xs i (.fin m) mi = (.fin rm, ri) ∧
        m ≤ rm ∧
        (∀ k, k < xs.length → (toNumber (xs.getD k .undefined)).toQ ≤ rm) ∧
        ((rm = m ∧ ri = mi) ∨
          (∃ k, k < xs.length ∧ ri = i + k ∧
            rm = (toNumber (xs.getD k .undefined)).toQ ∧ m < rm ∧
            (∀ j, j < k → (toNumber (xs.getD j .undefined)).toQ < rm))) := by
  intro xs
  induction xs with
  | nil =>
      intro hfin i mi m
      refine ⟨m, mi, rfl, le_refl m, ?_, Or.inl ⟨rfl, rfl⟩⟩
      intro k hk
      simp at hk
  | cons x rest ih =>
      intro hfin i mi m
      have hx : (toNumber x).isFinite = true := hfin x (List.mem_cons_self x rest)
      obtain ⟨q0, hx0⟩ : ∃ q, toNumber x = .fin q :=
        ⟨(toNumber x).toQ, JsNum.eq_fin_of_isFinite _ hx⟩
      have hfin2 : ∀ y ∈ rest, (toNumber y).isFinite = true :=
        fun y hy => hfin y (List.mem_cons_of_mem x hy)
      by_cases hlt : m < q0
      · have hstep : scanMaxGo (x :: rest) i (.fin m) mi
            = scanMaxGo rest (i + 1) (.fin q0) i := by
          simp [scanMaxGo, hx0, JsNum.isFinite, jsGt, hlt]
        obtain ⟨rm, ri, heq, hle, hmax, hbr⟩ := ih hfin2 (i + 1) i q0
        refine ⟨rm, ri, hstep.trans heq, le_trans (le_of_lt hlt) hle, ?_, ?_⟩
        · intro k hk
          cases k with
          | zero => simpa [hx0, JsNum.toQ] using hle
          | succ k2 =>
              have hk2 : k2 < rest.length := by
                simpa using hk
              simpa [List.getD_cons_succ] using hmax k2 hk2
        · right
          rcases hbr with ⟨hrm, hri⟩ | ⟨k, hk, hri, hrm, hlt2, hfirst⟩
          · refine ⟨0, by simp, by omega, ?_, ?_, ?_⟩
            · simp [hx0, JsNum.toQ, hrm]
            · rw [hrm]; exact hlt
            · intro j hj; exact absurd hj (Nat.not_lt_zero j)
          · refine ⟨k + 1, by simpa using hk, by omega, ?_,
              lt_trans hlt hlt2, ?_⟩
            · simpa [List.getD_cons_succ] using hrm
            · intro j hj
              cases j with
              | zero => simpa [hx0, JsNum.toQ] using hlt2
              | succ j2 =>
                  have := hfirst j2 (by omega)
                  simpa [List.getD_cons_succ] using this
      · have hstep : scanMaxGo (x :: rest) i (.fin m) mi
            = scanMaxGo rest (i + 1) (.fin m) mi := by
          simp [scanMaxGo, hx0, JsNum.isFinite, jsGt, hlt]
        obtain ⟨rm, ri, heq, hle, hmax, hbr⟩ := ih hfin2 (i + 1) mi m
        have hq0m : q0 ≤ m := le_of_not_lt hlt
        refine ⟨rm, ri, hstep.trans heq, hle, ?_, ?_⟩
        · intro k hk
          cases k with
          | zero => simpa [hx0, JsNum.toQ] using le_trans hq0m hle
          | succ k2 =>
              have hk2 : k2 < rest.length := by
                simpa using hk
              simpa [List.getD_cons_succ] using hmax k2 hk2
        · rcases hbr with ⟨hrm, hri⟩ | ⟨k, hk, hri, hrm, hlt2, hfirst⟩
          · exact Or.inl ⟨hrm, hri⟩
          · right
            refine ⟨k + 1, by simpa using hk, by omega, ?_, hlt2, ?_⟩
            · simpa [List.getD_cons_succ] using hrm
            · intro j hj
              cases j with
              | zero =>
                  simpa [hx0, JsNum.toQ] using lt_of_le_of_lt hq0m hlt2
              | succ j2 =>
                  have := hfirst j2 (by omega)
                  simpa [List.getD_cons_succ] using this

/-- The `|| 0` guard is the identity on finite numbers (0 maps to 0). -/
theorem jsOrZero_fin (q : ℚ) : jsOrZero (.fin q) = .fin q := by
  by_cases h0 : q = 0 <;> simp [jsOrZero, jsNumTruthy, h0]

/-- C1: on a confidence vector of at least 3 entries that all coerce to
finite numbers, the classifier returns the tier-1 result: the level is
the band of the argmax index (strict comparison, ties to the first
occurrence, index clamped to the last band) and the score is the argmax
value times 100 rounded to one decimal place — regardless of any other
field of the payload, including a valid numeric biomass value. -/
theorem spec_C1 (root : JsValue) (xs : List JsValue)
    (hconf : confidenceOf root = .arr xs)
    (hlen : 3 ≤ xs.length)
    (hfin : ∀ x ∈ xs, (toNumber x).isFinite = true) :
    ∃ i, i < xs.length ∧
      (∀ k, k < xs.length →
        (toNumber (xs.getD k .undefined)).toQ
          ≤ (toNumber (xs.getD i .undefined)).toQ) ∧
      (∀ j, j < i →
        (toNumber (xs.getD j .undefined)).toQ
          < (toNumber (xs.getD i .undefined)).toQ) ∧
      extractProteinPrediction root =
        some { level := bands.getD (min i 2) .High,
               score := roundTo1 ((toNumber (xs.getD i .undefined)).toQ * 100) } := by
  have hne : xs ≠ [] := by
    intro h
    rw [h] at hlen
    simp at hlen
  have hhead : xs.headD .undefined = xs.getD 0 .undefined := by
    cases xs with
    | nil => exact absurd rfl hne
    | cons a l => rfl
  have hmem0 : xs.headD .undefined ∈ xs := by
    cases xs with
    | nil => exact absurd rfl hne
    | cons a l => exact List.mem_cons_self a l
  obtain ⟨q0, hq0⟩ : ∃ q, toNumber (xs.headD .undefined) = .fin q :=
    ⟨_, JsNum.eq_fin_of_isFinite _ (hfin _ hmem0)⟩
  have hq0get : (toNumber (xs.getD 0 .undefined)).toQ = q0 := by
    rw [← hhead, hq0]
    rfl
  obtain ⟨rm, ri, heq, hle, hmax, hbr⟩ :=
    scanMaxGo_finite_char xs hfin 0 0 q0
  have hscan : scanMax xs = (.fin rm, ri) := by
    unfold scanMax
    rw [hq0, jsOrZero_fin]
    exact heq
  have hext : extractProteinPrediction root =
      some { level := bandOf ri, score := roundTo1 (rm * 100) } := by
    rw [extractProteinPrediction.eq_def, hconf]
    simp only
    rw [if_pos hlen, hscan]
    simp [JsNum.isFinite, JsNum.toQ]
  have hattain : rm = (toNumber (xs.getD ri .undefined)).toQ := by
    rcases hbr with ⟨hrm, hri⟩ | ⟨k, hk, hri, hrm, hlt2, hfirst⟩
    · rw [hri, hq0get, hrm]
    · have hk2 : k = ri := by omega
      rw [hk2] at hrm
      exact hrm
  have hi_lt : ri < xs.length := by
    rcases hbr with ⟨hrm, hri⟩ | ⟨k, hk, hri, hrm, hlt2, hfirst⟩
    · rw [hri]; omega
    · omega
  have hfirstAll : ∀ j, j < ri →
      (toNumber (xs.getD j .undefined)).toQ
        < (toNumber (xs.getD ri .undefined)).toQ := by
    rcases hbr with ⟨hrm, hri⟩ | ⟨k, hk, hri, hrm, hlt2, hfirst⟩
    · intro j hj
      rw [hri] at hj
      exact absurd hj (Nat.not_lt_zero j)
    · intro j hj
      rw [← hattain]
      exact hfirst j (by omega)
  refine ⟨ri, hi_lt, ?_, hfirstAll, ?_⟩
  · intro k hk
    rw [← hattain]
    exact hmax k hk
  · rw [hext, hattain]
    have hband : bandOf ri = bands.getD (min ri 2) .High := by
      simp [bandOf, bands]
    rw [hband]

/-- A payload carrying both a 4-entry confidence vector and a valid
numeric biomass value. -/
def payloadConf90 : JsValue :=
  .obj [("biomass_prediction", .obj
    [("confidence", .arr [.num (.fin 0.1), .num (.fin 0.1),
        .num (.fin 0.8), .num (.fin 0.9)]),
     ("biomass_prediction", .num (.fin 25))])]

/-- The confidence entries of `payloadConf90`. -/
def confEntries90 : List JsValue :=
  [.num (.fin 0.1), .num (.fin 0.1), .num (.fin 0.8), .num (.fin 0.9)]

/-- Closed instance of C1 on the vector [0.1, 0.1, 0.8, 0.9] with a
numeric biomass value of 25 also present. -/
theorem spec_C1_witness :
    ∃ i, i < confEntries90.length ∧
      (∀ k, k < confEntries90.length →
        (toNumber (confEntries90.getD k .undefined)).toQ
          ≤ (toNumber (confEntries90.getD i .undefined)).toQ) ∧
      (∀ j, j < i →
        (toNumber (confEntries90.getD j .undefined)).toQ
          < (toNumber (confEntries90.getD i .undefined)).toQ) ∧
      extractProteinPrediction payloadConf90 =
        some { level := bands.getD (min i 2) .High,
               score := roundTo1
                 ((toNumber (confEntries90.getD i .undefined)).toQ * 100) } :=
  spec_C1 payloadConf90 confEntries90 rfl (by decide) (by decide)

/-- If no candidate coerces to a finite number, the running-maximum loop
never updates its accumulator. -/
theorem scanMaxGo_no_update :
    ∀ xs : List JsValue, (∀ x ∈ xs, (toNumber x).isFinite = false) →
    ∀ (i mi : ℕ) (mv : JsNum), scanMaxGo xs i mv mi = (mv, mi) := by
  intro xs
  induction xs with
  | nil => intro hfin i mi mv; rfl
  | cons x rest ih =>
      intro hfin i mi mv
      have hx : (toNumber x).isFinite = false :=
        hfin x (List.mem_cons_self x rest)
      have hrest : ∀ y ∈ rest, (toNumber y).isFinite = false :=
        fun y hy => hfin y (List.mem_cons_of_mem x hy)
      simp [scanMaxGo, hx, ih hrest]

/-- C10: tier-1 applicability is decided by shape alone.  Whenever the
confidence field is an array of length at least 3 the classifier returns
the tier-1 result, which depends on the array only (so tiers 2 and 3 are
never consulted, whatever the biomass or cultivation-status fields hold);
when additionally every entry is non-numeric, the result is exactly
level Low with score 0. -/
theorem spec_C10 (root : JsValue) (xs : List JsValue)
    (hconf : confidenceOf root = .arr xs)
    (hlen : 3 ≤ xs.length) :
    (extractProteinPrediction root =
      some { level := bandOf (scanMax xs).2,
             score := roundTo1 (if (scanMax xs).1.isFinite
               then (scanMax xs).1.toQ * 100 else 0) }) ∧
    ((∀ x ∈ xs, (toNumber x).isFinite = false) →
      extractProteinPrediction root = some { level := .Low, score := 0 }) := by
  have hmain : extractProteinPrediction root =
      some { level := bandOf (scanMax xs).2,
             score := roundTo1 (if (scanMax xs).1.isFinite
               then (scanMax xs).1.toQ * 100 else 0) } := by
    rw [extractProteinPrediction.eq_def, hconf]
    simp only
    rw [if_pos hlen]
  refine ⟨hmain, ?_⟩
  intro hbad
  have hne : xs ≠ [] := by
    intro h
    rw [h] at hlen
    simp at hlen
  have hmem0 : xs.headD .undefined ∈ xs := by
    cases xs with
    | nil => exact absurd rfl hne
    | cons a l => exact List.mem_cons_self a l
  have hscan : scanMax xs = (jsOrZero (toNumber (xs.headD .undefined)), 0) := by
    unfold scanMax
    exact scanMaxGo_no_update xs hbad 0 0 _
  rw [hmain, hscan]
  have hhead : (toNumber (xs.headD .undefined)).isFinite = false := hbad _ hmem0
  cases hn : toNumber (xs.headD .undefined) with
  | fin q => rw [hn] at hhead; simp [JsNum.isFinite] at hhead
  | nan =>
      norm_num [jsOrZero, jsNumTruthy, bandOf, bands, roundTo1,
        JsNum.isFinite, JsNum.toQ]
  | inf b =>
      norm_num [jsOrZero, jsNumTruthy, bandOf, bands, roundTo1,
        JsNum.isFinite, JsNum.toQ]

/-- A payload whose confidence entries are all non-numeric while a valid
numeric biomass value and a recognized cultivation status are also
present. -/
def payloadBadConf : JsValue :=
  .obj [("biomass_prediction", .obj
    [("confidence", .arr [.str "a", .str "b", .str "c"]),
     ("biomass_prediction", .num (.fin 80))]),
    ("cultivation_status", .str "VALID")]

/-- Closed instance of C10: the all-non-numeric vector still wins over
the numeric biomass and status fields, giving level Low with score 0. -/
theorem spec_C10_witness :
    extractProteinPrediction payloadBadConf =
      some { level := .Low, score := 0 } :=
  (spec_C10 payloadBadConf [.str "a", .str "b", .str "c"] rfl
    (by decide)).2 (by decide)

/-- A rounded growth value is positive once the base is at least 1.2. -/
theorem growthValue_pos (b : ℚ) (θ : ℝ) (hb : (1.2 : ℚ) ≤ b) :
    0 < ((round (((b : ℝ) + Real.sin θ * 0.1) * 100) : ℤ) : ℝ) / 100 := by
  have hs := Real.neg_one_le_sin θ
  have hb2 : (1.2 : ℝ) ≤ (b : ℝ) := by
    have h2 : ((1.2 : ℚ) : ℝ) ≤ (b : ℝ) := by exact_mod_cast hb
    have hc : ((1.2 : ℚ) : ℝ) = 1.2 := by norm_num
    rw [hc] at h2
    exact h2
  have hx : (110 : ℝ) ≤ ((b : ℝ) + Real.sin θ * 0.1) * 100 := by nlinarith
  have hr : (110 : ℤ) ≤ round (((b : ℝ) + Real.sin θ * 0.1) * 100) := by
    rw [round_eq]
    refine Int.le_floor.mpr ?_
    push_cast
    linarith
  have hr2 : (110 : ℝ) ≤ (round (((b : ℝ) + Real.sin θ * 0.1) * 100) : ℝ) := by
    exact_mod_cast hr
  linarith

/-- A rounded growth value stays at least 1.7 once the base is at least
1.8. -/
theorem growthValue_ge (b : ℚ) (θ : ℝ) (hb : (1.8 : ℚ) ≤ b) :
    (1.7 : ℝ) ≤ ((round (((b : ℝ) + Real.sin θ * 0.1) * 100) : ℤ) : ℝ) / 100 := by
  have hs := Real.neg_one_le_sin θ
  have hb2 : (1.8 : ℝ) ≤ (b : ℝ) := by
    have h2 : ((1.8 : ℚ) : ℝ) ≤ (b : ℝ) := by exact_mod_cast hb
    have hc : ((1.8 : ℚ) : ℝ) = 1.8 := by norm_num
    rw [hc] at h2
    exact h2
  have hx : (170 : ℝ) ≤ ((b : ℝ) + Real.sin θ * 0.1) * 100 := by nlinarith
  have hr : (170 : ℤ) ≤ round (((b : ℝ) + Real.sin θ * 0.1) * 100) := by
    rw [round_eq]
    refine Int.le_floor.mpr ?_
    push_cast
    linarith
  have hr2 : (170 : ℝ) ≤ (round (((b : ℝ) + Real.sin θ * 0.1) * 100) : ℝ) := by
    exact_mod_cast hr
  linarith

/-- A rounded growth value stays at most 3.6 once the base is at most
3.5. -/
theorem growthValue_le (b : ℚ) (θ : ℝ) (hb : b ≤ 3.5) :
    ((round (((b : ℝ) + Real.sin θ * 0.1) * 100) : ℤ) : ℝ) / 100 ≤ 3.6 := by
  have hs := Real.sin_le_one θ
  have hb2 : (b : ℝ) ≤ 3.5 := by
    have h2 : (b : ℝ) ≤ ((3.5 : ℚ) : ℝ) := by exact_mod_cast hb
    have hc : ((3.5 : ℚ) : ℝ) = 3.5 := by norm_num
    rw [hc] at h2
    exact h2
  have hx : ((b : ℝ) + Real.sin θ * 0.1) * 100 ≤ 360 := by nlinarith
  have hr : round (((b : ℝ) + Real.sin θ * 0.1) * 100) < 361 := by
    rw [round_eq]
    refine Int.floor_lt.mpr ?_
    push_cast
    linarith
  have hr2 : (round (((b : ℝ) + Real.sin θ * 0.1) * 100) : ℝ) ≤ 360 := by
    have : round (((b : ℝ) + Real.sin θ * 0.1) * 100) ≤ 360 := by omega
    exact_mod_cast this
  linarith

/-- C3: for every input — metrics absent or any metrics record — the
growth series has exactly 14 points, their day fields are exactly
1, 2, ..., 14 in order, and every doubling time is strictly positive. -/
theorem spec_C3 (m : Option SiteMetrics) :
    (generateGrowthSeriesFromMetrics m).length = 14 ∧
    ((generateGrowthSeriesFromMetrics m).map GrowthPoint.day
      = (List.range 14).map (fun idx => idx + 1)) ∧
    (∀ p ∈ generateGrowthSeriesFromMetrics m, 0 < p.doublingTime) := by
  cases m with
  | none =>
      refine ⟨by simp [generateGrowthSeriesFromMetrics, DEFAULT_GROWTH_SERIES],
        ?_, ?_⟩
      · simp only [generateGrowthSeriesFromMetrics, DEFAULT_GROWTH_SERIES,
          List.map_map]
        rfl
      · intro p hp
        simp only [generateGrowthSeriesFromMetrics, DEFAULT_GROWTH_SERIES,
          List.mem_map] at hp
        obtain ⟨idx, hidx, rfl⟩ := hp
        have hs := Real.neg_one_le_sin ((idx : ℝ) / 2)
        simp only
        nlinarith
  | some mm =>
      refine ⟨by simp [generateGrowthSeriesFromMetrics], ?_, ?_⟩
      · simp only [generateGrowthSeriesFromMetrics, List.map_map]
        rfl
      · intro p hp
        simp only [generateGrowthSeriesFromMetrics, List.mem_map] at hp
        obtain ⟨idx, hidx, rfl⟩ := hp
        simp only
        exact growthValue_pos _ _ (le_max_left _ _)

/-- Closed instance of C3: the first default-series point has positive
doubling time. -/
theorem spec_C3_witness :
    0 < ((generateGrowthSeriesFromMetrics none).getD 0
      { day := 0, doublingTime := 0 }).doublingTime := by
  have hlen : 0 < (generateGrowthSeriesFromMetrics none).length := by
    have h14 := (spec_C3 none).1
    omega
  have hmem : (generateGrowthSeriesFromMetrics none).getD 0
      { day := 0, doublingTime := 0 } ∈ generateGrowthSeriesFromMetrics none := by
    rw [List.getD_eq_getElem _ _ hlen]
    exact List.getElem_mem hlen
  exact (spec_C3 none).2.2 _ hmem

/-- C4 counterexample: with temperature 1000 the base clamps to 3.5, but
the seasonal sine term is added after the clamp, so day 2 rounds to at
least 3.57, leaving the claimed interval [1.2, 3.5]. -/
theorem spec_C4_counterexample :
    ¬ (∀ p ∈ generateGrowthSeriesFromMetrics
        (some { temperature := 1000, ph := 9, radiation := 16, salinity := 3 }),
        1.2 ≤ p.doublingTime ∧ p.doublingTime ≤ 3.5) := by
  intro h
  simp only [generateGrowthSeriesFromMetrics] at h
  have hmem : (1 : ℕ) ∈ List.range 14 := by decide
  have h2 := (h _ (List.mem_map.mpr ⟨1, hmem, rfl⟩)).2
  simp only at h2
  have hbase : max (1.2 : ℚ) (min 3.5 (1.8 +
      (|(1000 : ℚ) - IDEAL_METRICS.temperature| * 0.03 +
       |(16 : ℚ) - IDEAL_METRICS.radiation| * 0.02))) = 3.5 := by
    have h970 : |(1000 : ℚ) - IDEAL_METRICS.temperature| = 970 := by
      rw [show (1000 : ℚ) - IDEAL_METRICS.temperature = 970 from by
        norm_num [IDEAL_METRICS]]
      exact abs_of_nonneg (by norm_num)
    have h0 : |(16 : ℚ) - IDEAL_METRICS.radiation| = 0 := by
      rw [show (16 : ℚ) - IDEAL_METRICS.radiation = 0 from by
        norm_num [IDEAL_METRICS]]
      exact abs_zero
    rw [h970, h0]
    norm_num
  rw [hbase] at h2
  have hθ : ((1 : ℕ) + 1 : ℝ) / 2.5 = 0.8 := by norm_num
  have hsin : (0.672 : ℝ) < Real.sin (((1 : ℕ) + 1 : ℝ) / 2.5) := by
    rw [hθ]
    have := Real.sin_gt_sub_cube (x := 0.8) (by norm_num) (by norm_num)
    nlinarith
  have hcast : ((3.5 : ℚ) : ℝ) = 3.5 := by norm_num
  have hround : (357 : ℤ) ≤ round ((((3.5 : ℚ) : ℝ)
      + Real.sin (((1 : ℕ) + 1 : ℝ) / 2.5) * 0.1) * 100) := by
    rw [round_eq]
    refine Int.le_floor.mpr ?_
    push_cast
    nlinarith
  have hval : (3.57 : ℝ) ≤ ((round ((((3.5 : ℚ) : ℝ)
      + Real.sin (((1 : ℕ) + 1 : ℝ) / 2.5) * 0.1) * 100) : ℤ) : ℝ) / 100 := by
    have h357 : (357 : ℝ) ≤ ((round ((((3.5 : ℚ) : ℝ)
        + Real.sin (((1 : ℕ) + 1 : ℝ) / 2.5) * 0.1) * 100) : ℤ) : ℝ) := by
      exact_mod_cast hround
    linarith
  push_cast at h2
  linarith

/-- C4 amended: every doubling time of a metrics-derived series lies in
the closed interval [1.2, 3.6] (the base is clamped to [1.8, 3.5] and the
rounded seasonal term moves it by at most 0.1), regardless of how extreme
the input temperature and radiation are. -/
theorem spec_C4_amended (m : SiteMetrics) :
    ∀ p ∈ generateGrowthSeriesFromMetrics (some m),
      1.2 ≤ p.doublingTime ∧ p.doublingTime ≤ 3.6 := by
  intro p hp
  simp only [generateGrowthSeriesFromMetrics, List.mem_map] at hp
  obtain ⟨idx, hidx, rfl⟩ := hp
  simp only
  have hpen0 : 0 ≤ |m.temperature - IDEAL_METRICS.temperature| * 0.03 +
      |m.radiation - IDEAL_METRICS.radiation| * 0.02 :=
    add_nonneg (mul_nonneg (abs_nonneg _) (by norm_num))
      (mul_nonneg (abs_nonneg _) (by norm_num))
  have hb18 : (1.8 : ℚ) ≤ max 1.2 (min 3.5 (1.8 +
      (|m.temperature - IDEAL_METRICS.temperature| * 0.03 +
       |m.radiation - IDEAL_METRICS.radiation| * 0.02))) :=
    le_trans (le_min (by norm_num) (by linarith)) (le_max_right _ _)
  have hb35 : max (1.2 : ℚ) (min 3.5 (1.8 +
      (|m.temperature - IDEAL_METRICS.temperature| * 0.03 +
       |m.radiation - IDEAL_METRICS.radiation| * 0.02))) ≤ 3.5 :=
    max_le (by norm_num) (min_le_left _ _)
  constructor
  · have h17 := growthValue_ge _ (((idx + 1 : ℕ) : ℝ) / 2.5) hb18
    linarith
  · exact growthValue_le _ _ hb35

/-- Closed instance of the amended C4 at the ideal metrics, day 1. -/
theorem spec_C4_amended_witness :
    1.2 ≤ ((generateGrowthSeriesFromMetrics (some IDEAL_METRICS)).getD 0
      { day := 0, doublingTime := 0 }).doublingTime ∧
    ((generateGrowthSeriesFromMetrics (some IDEAL_METRICS)).getD 0
      { day := 0, doublingTime := 0 }).doublingTime ≤ 3.6 := by
  have hlen : 0 < (generateGrowthSeriesFromMetrics (some IDEAL_METRICS)).length := by
    simp [generateGrowthSeriesFromMetrics]
  have hmem : (generateGrowthSeriesFromMetrics (some IDEAL_METRICS)).getD 0
      { day := 0, doublingTime := 0 }
      ∈ generateGrowthSeriesFromMetrics (some IDEAL_METRICS) := by
    rw [List.getD_eq_getElem _ _ hlen]
    exact List.getElem_mem hlen
  exact spec_C4_amended IDEAL_METRICS _ hmem

/-- Group properties of a successful close scan: the captured group
contains no newline, no double star, and does not end in a star. -/
theorem findClose_group_spec :
    ∀ cs g r, findClose cs = some (g, r) →
      '\n' ∉ g ∧ (∀ a b2, g ≠ a ++ '*' :: '*' :: b2) ∧
      (∀ a, g ≠ a ++ ['*']) := by
  intro cs
  induction cs using findClose.induct with
  | case1 rest =>
      intro g r h
      simp [findClose] at h
      obtain ⟨hg, hr⟩ := h
      subst hg
      refine ⟨by simp, ?_, ?_⟩
      · intro a b2 hx
        exact absurd hx.symm (by simp)
      · intro a hx
        exact absurd hx.symm (by simp)
  | case2 x => intro g r h; simp [findClose] at h
  | case3 c rest h1 h2 g0 r0 hsome ih =>
      intro g r h
      simp [findClose, hsome] at h
      obtain ⟨hnl0, hnp0, hnes0⟩ := ih g0 r0 hsome
      have hrest : rest = g0 ++ '*' :: '*' :: r0 := findClose_sound rest g0 r0 hsome
      rw [← h.1]
      refine ⟨?_, ?_, ?_⟩
      · intro hmem
        rcases List.mem_cons.mp hmem with hc | hmem0
        · exact h2 hc.symm
        · exact hnl0 hmem0
      · intro a b2 hx
        cases a with
        | nil =>
            simp at hx
            obtain ⟨hc, hg0⟩ := hx
            exact h1 (b2 ++ '*' :: '*' :: r0) hc (by rw [hrest, hg0]; simp)
        | cons a0 a1 =>
            simp at hx
            exact hnp0 a1 b2 hx.2
      · intro a hx
        cases a with
        | nil =>
            simp at hx
            exact h1 ('*' :: r0) hx.1 (by rw [hrest, hx.2]; simp)
        | cons a0 a1 =>
            simp at hx
            exact hnes0 a1 hx.2
  | case4 c rest h1 h2 hnone ih =>
      intro g r h
      simp [findClose, hnone] at h
  | case5 => intro g r h; simp [findClose] at h

/-- The close scan fails exactly when every double star in the input has
a newline strictly before it. -/
theorem findClose_none_iff :
    ∀ cs, findClose cs = none ↔
      (∀ a b2, cs = a ++ '*' :: '*' :: b2 → '\n' ∈ a) := by
  intro cs
  induction cs using findClose.induct with
  | case1 rest =>
      refine iff_of_false (by simp [findClose]) ?_
      intro H
      have := H [] rest rfl
      simp at this
  | case2 x =>
      refine iff_of_true (by simp [findClose]) ?_
      intro a b2 heq
      cases a with
      | nil => simp at heq
      | cons a0 a1 =>
          simp only [List.cons_append, List.cons.injEq] at heq
          rw [← heq.1]
          exact List.mem_cons_self _ _
  | case3 c rest h1 h2 g0 r0 hsome ih =>
      have hval : findClose (c :: rest) = some (c :: g0, r0) := by
        simp [findClose, hsome]
      refine iff_of_false (by simp [hval]) ?_
      intro H
      have hrest : rest = g0 ++ '*' :: '*' :: r0 := findClose_sound rest g0 r0 hsome
      obtain ⟨hnl0, _, _⟩ := findClose_group_spec rest g0 r0 hsome
      have := H (c :: g0) r0 (by rw [hrest]; simp)
      rcases List.mem_cons.mp this with hc | hmem
      · exact h2 hc.symm
      · exact hnl0 hmem
  | case4 c rest h1 h2 hnone ih =>
      have hval : findClose (c :: rest) = none := by
        simp [findClose, hnone]
      refine iff_of_true hval ?_
      intro a b2 heq
      cases a with
      | nil =>
          simp at heq
          exact (h1 b2 heq.1 heq.2).elim
      | cons a0 a1 =>
          simp at heq
          have := (ih.mp hnone) a1 b2 heq.2
          exact List.mem_cons_of_mem a0 this
  | case5 =>
      refine iff_of_true rfl ?_
      intro a b2 heq
      simp at heq

/-- A newline-blocked prefix blocks any continuation: if the close scan
fails on `b` followed by a double star, it fails on `b` followed by
anything. -/
theorem findClose_none_extend (b X W : List Char)
    (h : findClose (b ++ '*' :: '*' :: X) = none) :
    findClose (b ++ W) = none := by
  have H := (findClose_none_iff _).mp h
  have hkey : '\n' ∈ b := H b X rfl
  refine (findClose_none_iff _).mpr ?_
  intro a w heq
  rcases List.append_eq_append_iff.mp heq with ⟨a2, ha, hb⟩ | ⟨e2, ha, hb⟩
  · rw [ha]
    exact List.mem_append_left a2 hkey
  · cases e2 with
    | nil =>
        have hba : b = a := by simpa using ha
        rw [← hba]
        exact hkey
    | cons x e3 =>
        cases e3 with
        | nil =>
            have hx : x = '*' := by
              simp at hb
              exact hb.1.symm
            have hb2 : b = a ++ ['*'] := by rw [ha, hx]
            exact H a ('*' :: X) (by rw [hb2]; simp)
        | cons y e4 =>
            have hxy : x = '*' ∧ y = '*' := by
              simp at hb
              exact ⟨hb.1.symm, hb.2.1.symm⟩
            have hb2 : b = a ++ '*' :: '*' :: e4 := by rw [ha, hxy.1, hxy.2]
            exact H a (e4 ++ '*' :: '*' :: X) (by rw [hb2]; simp)

/-- Group properties of a successful open scan. -/
theorem scanOpen_group_spec :
    ∀ cs pre g post, scanOpen cs = some (pre, g, post) →
      '\n' ∉ g ∧ (∀ a b2, g ≠ a ++ '*' :: '*' :: b2) ∧
      (∀ a, g ≠ a ++ ['*']) := by
  intro cs
  induction cs using scanOpen.induct with
  | case1 c1 c2 rest2 hstars g0 r0 hfc =>
    intro pre g post h
    obtain ⟨hc1, hc2⟩ := hstars
    subst hc1; subst hc2
    simp [scanOpen, hfc] at h
    obtain ⟨hnl, hnp, hnes⟩ := findClose_group_spec rest2 g0 r0 hfc
    rw [← h.2.1]
    exact ⟨hnl, hnp, hnes⟩
  | case2 c1 c2 rest2 hstars hfc pre0 g0 r0 hso ih =>
    intro pre g post h
    obtain ⟨hc1, hc2⟩ := hstars
    subst hc1; subst hc2
    simp [scanOpen, hfc, hso] at h
    obtain ⟨hnl, hnp, hnes⟩ := ih pre0 g0 r0 hso
    rw [← h.2.1]
    exact ⟨hnl, hnp, hnes⟩
  | case3 c1 c2 rest2 hstars hfc hso ih =>
    intro pre g post h
    obtain ⟨hc1, hc2⟩ := hstars
    subst hc1; subst hc2
    simp [scanOpen, hfc, hso] at h
  | case4 c1 c2 rest2 hstars pre0 g0 r0 hso ih =>
    intro pre g post h
    simp [scanOpen, hstars, hso] at h
    obtain ⟨hnl, hnp, hnes⟩ := ih pre0 g0 r0 hso
    rw [← h.2.1]
    exact ⟨hnl, hnp, hnes⟩
  | case5 c1 c2 rest2 hstars hso ih =>
    intro pre g post h
    simp [scanOpen, hstars, hso] at h
  | case6 t hx =>
    intro pre g post h
    match t, hx with
    | [], _ => simp [scanOpen] at h
    | [a], _ => simp [scanOpen] at h
    | a :: b :: t3, hx => exact (hx a b t3 rfl).elim

/-- A newline-free group followed by a double star always lets the close
scan succeed (so its result is not `none`). -/
theorem findClose_append_pair_ne_none (g X : List Char) (hnl : '\n' ∉ g) :
    findClose (g ++ '*' :: '*' :: X) ≠ none := by
  intro hn
  exact hnl ((findClose_none_iff _).mp hn g X rfl)

/-- Prefix properties of a successful open scan: every double star inside
the prefix has no reachable close over the rest of the input, and the
prefix does not end in a star. -/
theorem scanOpen_pre_spec :
    ∀ cs pre g post, scanOpen cs = some (pre, g, post) →
      (∀ a b2, pre = a ++ '*' :: '*' :: b2 →
        findClose (b2 ++ '*' :: '*' :: g ++ '*' :: '*' :: post) = none) ∧
      (∀ a, pre ≠ a ++ ['*']) := by
  intro cs
  induction cs using scanOpen.induct with
  | case1 c1 c2 rest2 hstars g0 r0 hfc =>
    intro pre g post h
    obtain ⟨hc1, hc2⟩ := hstars
    subst hc1; subst hc2
    simp [scanOpen, hfc] at h
    obtain ⟨h1, h2a, h3⟩ := h
    subst h1; subst h2a; subst h3
    constructor
    · intro a b2 hx
      exact absurd hx.symm (by simp)
    · intro a hx
      exact absurd hx.symm (by simp)
  | case2 c1 c2 rest2 hstars hfc pre0 g0 r0 hso ih =>
    intro pre g post h
    obtain ⟨hc1, hc2⟩ := hstars
    subst hc1; subst hc2
    simp [scanOpen, hfc, hso] at h
    obtain ⟨h1, h2a, h3⟩ := h
    subst h1; subst h2a; subst h3
    obtain ⟨ihB, ihNes⟩ := ih pre0 g0 r0 hso
    have hsound : '*' :: rest2 = pre0 ++ '*' :: '*' :: g0 ++ '*' :: '*' :: r0 :=
      scanOpen_sound _ pre0 g0 r0 hso
    obtain ⟨hnl, hnp, hnes⟩ := scanOpen_group_spec _ pre0 g0 r0 hso
    constructor
    · intro a b2 hx
      cases a with
      | nil =>
          simp only [List.nil_append, List.cons.injEq] at hx
          rw [hx.2] at hsound
          simp only [List.cons_append, List.cons.injEq] at hsound
          rw [← hsound.2]
          exact hfc
      | cons a0 a1 =>
          simp only [List.cons_append, List.cons.injEq] at hx
          exact ihB a1 b2 hx.2
    · intro a hx
      cases a with
      | nil =>
          simp only [List.nil_append, List.cons.injEq] at hx
          rw [hx.2] at hsound
          simp only [List.nil_append, List.cons_append, List.cons.injEq] at hsound
          refine findClose_append_pair_ne_none ('*' :: g0) r0 ?_ ?_
          · intro hmem
            rcases List.mem_cons.mp hmem with hcc | hmem2
            · exact absurd hcc (by decide)
            · exact hnl hmem2
          · simp only [List.cons_append]
            rw [← hsound.2]
            exact hfc
      | cons a0 a1 =>
          simp only [List.cons_append, List.cons.injEq] at hx
          exact ihNes a1 hx.2
  | case3 c1 c2 rest2 hstars hfc hso ih =>
    intro pre g post h
    obtain ⟨hc1, hc2⟩ := hstars
    subst hc1; subst hc2
    simp [scanOpen, hfc, hso] at h
  | case4 c1 c2 rest2 hstars pre0 g0 r0 hso ih =>
    intro pre g post h
    simp [scanOpen, hstars, hso] at h
    obtain ⟨h1, h2a, h3⟩ := h
    subst h1; subst h2a; subst h3
    obtain ⟨ihB, ihNes⟩ := ih pre0 g0 r0 hso
    have hsound : c2 :: rest2 = pre0 ++ '*' :: '*' :: g0 ++ '*' :: '*' :: r0 :=
      scanOpen_sound _ pre0 g0 r0 hso
    constructor
    · intro a b2 hx
      cases a with
      | nil =>
          simp only [List.nil_append, List.cons.injEq] at hx
          rw [hx.2] at hsound
          simp only [List.cons_append, List.cons.injEq] at hsound
          exact absurd ⟨hx.1, hsound.1⟩ hstars
      | cons a0 a1 =>
          simp only [List.cons_append, List.cons.injEq] at hx
          exact ihB a1 b2 hx.2
    · intro a hx
      cases a with
      | nil =>
          simp only [List.nil_append, List.cons.injEq] at hx
          rw [hx.2] at hsound
          simp only [List.nil_append, List.cons_append, List.cons.injEq] at hsound
          exact absurd ⟨hx.1, hsound.1⟩ hstars
      | cons a0 a1 =>
          simp only [List.cons_append, List.cons.injEq] at hx
          exact ihNes a1 hx.2
  | case5 c1 c2 rest2 hstars hso ih =>
    intro pre g post h
    simp [scanOpen, hstars, hso] at h
  | case6 t hx =>
    intro pre g post h
    match t, hx with
    | [], _ => simp [scanOpen] at h
    | [a], _ => simp [scanOpen] at h
    | a :: b :: t3, hx => exact (hx a b t3 rfl).elim

/-- The open scan fails exactly when no double star in the input has a
reachable close. -/
theorem scanOpen_none_iff :
    ∀ cs, scanOpen cs = none ↔
      (∀ a b2, cs = a ++ '*' :: '*' :: b2 → findClose b2 = none) := by
  intro cs
  induction cs using scanOpen.induct with
  | case1 c1 c2 rest2 hstars g0 r0 hfc =>
    obtain ⟨hc1, hc2⟩ := hstars
    subst hc1; subst hc2
    refine iff_of_false (by simp [scanOpen, hfc]) ?_
    intro H
    have := H [] rest2 rfl
    rw [this] at hfc
    cases hfc
  | case2 c1 c2 rest2 hstars hfc pre0 g0 r0 hso ih =>
    obtain ⟨hc1, hc2⟩ := hstars
    subst hc1; subst hc2
    refine iff_of_false (by simp [scanOpen, hfc, hso]) ?_
    intro H
    have hsound : '*' :: rest2 = pre0 ++ '*' :: '*' :: g0 ++ '*' :: '*' :: r0 :=
      scanOpen_sound _ pre0 g0 r0 hso
    obtain ⟨hnl, _, _⟩ := scanOpen_group_spec _ pre0 g0 r0 hso
    have hdecomp : '*' :: '*' :: rest2
        = ('*' :: pre0) ++ '*' :: '*' :: (g0 ++ '*' :: '*' :: r0) := by
      rw [hsound]
      simp
    have := H ('*' :: pre0) (g0 ++ '*' :: '*' :: r0) hdecomp
    exact findClose_append_pair_ne_none g0 r0 hnl this
  | case3 c1 c2 rest2 hstars hfc hso ih =>
    obtain ⟨hc1, hc2⟩ := hstars
    subst hc1; subst hc2
    refine iff_of_true (by simp [scanOpen, hfc, hso]) ?_
    intro a b2 heq
    cases a with
    | nil =>
        simp only [List.nil_append, List.cons.injEq] at heq
        obtain ⟨-, -, h3⟩ := heq
        rw [← h3]
        exact hfc
    | cons a0 a1 =>
        simp only [List.cons_append, List.cons.injEq] at heq
        exact (ih.mp hso) a1 b2 heq.2
  | case4 c1 c2 rest2 hstars pre0 g0 r0 hso ih =>
    refine iff_of_false (by simp [scanOpen, hstars, hso]) ?_
    intro H
    have hsound : c2 :: rest2 = pre0 ++ '*' :: '*' :: g0 ++ '*' :: '*' :: r0 :=
      scanOpen_sound _ pre0 g0 r0 hso
    obtain ⟨hnl, _, _⟩ := scanOpen_group_spec _ pre0 g0 r0 hso
    have hdecomp : c1 :: c2 :: rest2
        = (c1 :: pre0) ++ '*' :: '*' :: (g0 ++ '*' :: '*' :: r0) := by
      rw [hsound]
      simp
    have := H (c1 :: pre0) (g0 ++ '*' :: '*' :: r0) hdecomp
    exact findClose_append_pair_ne_none g0 r0 hnl this
  | case5 c1 c2 rest2 hstars hso ih =>
    refine iff_of_true (by simp [scanOpen, hstars, hso]) ?_
    intro a b2 heq
    cases a with
    | nil =>
        simp only [List.nil_append, List.cons.injEq] at heq
        exact absurd ⟨heq.1, heq.2.1⟩ hstars
    | cons a0 a1 =>
        simp only [List.cons_append, List.cons.injEq] at heq
        exact (ih.mp hso) a1 b2 heq.2
  | case6 t hx =>
    have hval : scanOpen t = none := by
      match t, hx with
      | [], _ => rfl
      | [a], _ => rfl
      | a :: b :: t3, hx => exact (hx a b t3 rfl).elim
    refine iff_of_true hval ?_
    intro a b2 heq
    match t, hx with
    | [], _ =>
        cases a with
        | nil => cases heq
        | cons a0 a1 => cases heq
    | [c], _ =>
        cases a with
        | nil => cases heq
        | cons a0 a1 =>
            simp only [List.cons_append, List.cons.injEq] at heq
            obtain ⟨h1x, h2x⟩ := heq
            cases a1 with
            | nil => cases h2x
            | cons y a2 => cases h2x
    | a0 :: b0 :: t3, hx => exact (hx a0 b0 t3 rfl).elim

/-- If a group has no double star and does not end in a star, any double
star inside `g ++ R` sits inside `R`; so when every such suffix of `R`
has no reachable close, the same holds over `g ++ R`. -/
theorem suffix_none_of_gR (g R : List Char)
    (hgnp : ∀ a b2, g ≠ a ++ '*' :: '*' :: b2)
    (hgnes : ∀ a, g ≠ a ++ ['*'])
    (hR : ∀ a b2, R = a ++ '*' :: '*' :: b2 → findClose b2 = none) :
    ∀ a b2, g ++ R = a ++ '*' :: '*' :: b2 → findClose b2 = none := by
  intro a b2 heq
  rcases List.append_eq_append_iff.mp heq with ⟨a2, ha, hb⟩ | ⟨d2, ha, hb⟩
  · exact hR a2 b2 hb
  · cases d2 with
    | nil =>
        simp only [List.nil_append] at hb
        exact hR [] b2 hb.symm
    | cons x d3 =>
        cases d3 with
        | nil =>
            simp only [List.cons_append, List.nil_append,
              List.cons.injEq] at hb
            exact absurd (by rw [ha, ← hb.1]) (hgnes a)
        | cons y d4 =>
            simp only [List.cons_append, List.cons.injEq] at hb
            exact absurd (by rw [ha, ← hb.1, ← hb.2.1]) (hgnp a d4)

/-- The replacement is the identity when there is no match. -/
theorem replaceBold_eq_none (cs : List Char) (h : scanOpen cs = none) :
    replaceBoldChars cs = cs := by
  unfold replaceBoldChars
  split
  · rfl
  · rename_i pre g post heq
    rw [h] at heq
    cases heq

/-- The replacement substitutes the first match by its group and recurses
after it. -/
theorem replaceBold_eq_some (cs pre g post : List Char)
    (h : scanOpen cs = some (pre, g, post)) :
    replaceBoldChars cs = pre ++ g ++ replaceBoldChars post := by
  unfold replaceBoldChars
  split
  · rename_i heq
    rw [h] at heq
    cases heq
  · rename_i pre2 g2 post2 heq
    rw [h] at heq
    simp only [Option.some.injEq, Prod.mk.injEq] at heq
    obtain ⟨h1, h2, h3⟩ := heq
    rw [h1, h2, h3]
    rw [← replaceBoldChars.eq_def]

/-- The output of the bold-marker replacement contains no further match:
one pass removes every matchable pair. -/
theorem scanOpen_replaceBold : ∀ cs, scanOpen (replaceBoldChars cs) = none := by
  intro cs
  induction cs using replaceBoldChars.induct with
  | case1 cs h => rw [replaceBold_eq_none cs h]; exact h
  | case2 cs pre g post h ih =>
      rw [replaceBold_eq_some cs pre g post h]
      obtain ⟨hgnl, hgnp, hgnes⟩ := scanOpen_group_spec cs pre g post h
      obtain ⟨hpreB, hpreNes⟩ := scanOpen_pre_spec cs pre g post h
      have hR := (scanOpen_none_iff _).mp ih
      refine (scanOpen_none_iff _).mpr ?_
      intro a b2 heq
      rw [List.append_assoc] at heq
      rcases List.append_eq_append_iff.mp heq with ⟨a2, ha, hb⟩ | ⟨c2, ha, hb⟩
      · exact suffix_none_of_gR g _ hgnp hgnes hR a2 b2 hb
      · cases c2 with
        | nil =>
            simp only [List.nil_append] at hb
            exact suffix_none_of_gR g _ hgnp hgnes hR [] b2 (by simp [hb.symm])
        | cons x c3 =>
            cases c3 with
            | nil =>
                simp only [List.cons_append, List.nil_append,
                  List.cons.injEq] at hb
                exact absurd (by rw [ha, ← hb.1]) (hpreNes a)
            | cons y c4 =>
                simp only [List.cons_append, List.cons.injEq] at hb
                have hpre : pre = a ++ '*' :: '*' :: c4 := by
                  rw [ha, ← hb.1, ← hb.2.1]
                have hnone := hpreB a c4 hpre
                simp only [List.append_assoc, List.cons_append] at hnone
                rw [hb.2.2]
                exact findClose_none_extend c4 (g ++ '*' :: '*' :: post)
                  (g ++ replaceBoldChars post) hnone

/-- One replacement pass is idempotent. -/
theorem replaceBold_idem (cs : List Char) :
    replaceBoldChars (replaceBoldChars cs) = replaceBoldChars cs :=
  replaceBold_eq_none _ (scanOpen_replaceBold cs)

/-- C6: the markdown-bold cleaner maps null, undefined and the empty
string to the empty string, strips the `**` delimiters while keeping the
enclosed text (shown on the spec's example), and is idempotent on every
input. -/
theorem spec_C6 :
    cleanMarkdownBold .null = "" ∧
    cleanMarkdownBold .undefined = "" ∧
    cleanMarkdownBold (.string "") = "" ∧
    cleanMarkdownBold (.string "**bold** text") = "bold text" ∧
    (∀ x : JsStrInput,
      cleanMarkdownBold (.string (cleanMarkdownBold x)) = cleanMarkdownBold x) := by
  refine ⟨rfl, rfl, rfl, ?_, ?_⟩
  · have h1 : scanOpen ("**bold** text".toList)
        = some ([], ['b', 'o', 'l', 'd'], [' ', 't', 'e', 'x', 't']) := by
      decide
    have h2 : scanOpen [' ', 't', 'e', 'x', 't'] = none := by decide
    simp only [cleanMarkdownBold]
    rw [if_neg (by decide)]
    rw [replaceBold_eq_some _ _ _ _ h1, replaceBold_eq_none _ h2]
    rfl
  · intro x
    cases x with
    | null => rfl
    | undefined => rfl
    | string s =>
        by_cases hs : s = ""
        · subst hs; rfl
        · simp only [cleanMarkdownBold, if_neg hs]
          by_cases h2 : String.mk (replaceBoldChars s.toList) = ""
          · rw [if_pos h2, h2]
          · simp only [cleanMarkdownBold, if_neg h2]
            have hlist : (String.mk (replaceBoldChars s.toList)).toList
                = replaceBoldChars s.toList := rfl
            rw [hlist, replaceBold_idem]
